import Mathlib

/-! # Constantine: pseudo-constness analysis (`sources/ModuleAnalysis.cpp`)

A shallow embedding of the analysis engine of the Constantine clang plugin.

* Declarations are identified by the address of their AST node (`DeclPtr`);
  `std::set<clang::DeclaratorDecl const *>` is a finite set of addresses that
  is iterated in ascending address order.
* The clang AST is immutable during a run; what the code reads through a
  declaration pointer is a field of the corresponding record here, and a null
  pointer is `none`.
* `ScopeAnalysis` (declared in `ScopeAnalysis.hpp`) is not among the
  available sources; its data type and its `AnalyseThis` are modelled from
  the specification and marked as such.
-/

namespace Constantine

/-! ## clang types read by the analysis -/

/-- Address of a clang declaration node. -/
abbrev DeclPtr := Nat

/-- The part of `clang::QualType` the analysis looks at: either a
non-reference type with its own `const` qualifier, or a reference type with
the `const` qualifier of the type referred to. -/
inductive QualType where
  | value (constQualified : Bool)
  | reference (pointeeConstQualified : Bool)
  deriving DecidableEq, Repr

namespace QualType

/-- `QualType::getNonReferenceType`: the type referred to for a reference
type, the type itself otherwise. -/
def getNonReferenceType : QualType → QualType
  | value c => value c
  | reference c => value c

/-- `QualType::isConstQualified`: a reference type carries no qualifier of
its own. -/
def isConstQualified : QualType → Bool
  | value c => c
  | reference _ => false

end QualType

/-- What the analysis reads through a `clang::DeclaratorDecl const *`. -/
structure ASTContext where
  /-- `V->getType()` for the declaration at address `V`. -/
  getType : DeclPtr → QualType

/-- `typedef std::set<clang::DeclaratorDecl const *> Variables;` -/
abbrev Variables := Finset DeclPtr

/-- Iteration order of a `std::set` of pointers: ascending addresses. -/
def Variables.iterate (S : Variables) : List DeclPtr :=
  Quotient.liftOn S.val (List.insertionSort (· ≤ ·)) fun A B h =>
    List.eq_of_perm_of_sorted
      (((List.perm_insertionSort _ A).trans h).trans (List.perm_insertionSort _ B).symm)
      (List.sorted_insertionSort _ A) (List.sorted_insertionSort _ B)

/-! ## ScopeAnalysis (data type) -/

/-- Modelled from the spec: the class `ScopeAnalysis` (header
`ScopeAnalysis.hpp`, absent from the sources). A Scope Result is "the pair
(Referenced set, Changed set) of Variable Identities for one Scope". -/
structure ScopeAnalysis where
  Changed : Variables
  Used : Variables

instance : DecidableEq ScopeAnalysis := fun A B =>
  decidable_of_iff (A.Changed = B.Changed ∧ A.Used = B.Used)
    (by cases A; cases B; simp)

namespace ScopeAnalysis

/-- Modelled from the spec: `ScopeAnalysis::WasChanged`, membership in the
Changed set of the Scope Result. -/
def WasChanged (A : ScopeAnalysis) (V : DeclPtr) : Bool :=
  decide (V ∈ A.Changed)

/-- Modelled from the spec: `ScopeAnalysis::WasReferenced`, membership in the
Referenced set of the Scope Result. -/
def WasReferenced (A : ScopeAnalysis) (V : DeclPtr) : Bool :=
  decide (V ∈ A.Used)

end ScopeAnalysis

/-! ## PseudoConstnessAnalysisState -/

/-- The two member sets of `class PseudoConstnessAnalysisState`. -/
structure PseudoConstnessAnalysisState where
  Candidates : Variables
  Changed : Variables

instance : DecidableEq PseudoConstnessAnalysisState := fun A B =>
  decidable_of_iff (A.Candidates = B.Candidates ∧ A.Changed = B.Changed)
    (by cases A; cases B; simp)

namespace PseudoConstnessAnalysisState

/-- The constructor: both sets start empty. -/
def init : PseudoConstnessAnalysisState :=
  { Candidates := ∅, Changed := ∅ }

/-- `IsConst`: `D.getType().getNonReferenceType().isConstQualified()`. -/
def IsConst (Ctx : ASTContext) (D : DeclPtr) : Bool :=
  (Ctx.getType D).getNonReferenceType.isConstQualified

/-- `Eval`, ModuleAnalysis.cpp lines 64-75. -/
def Eval (Ctx : ASTContext) (S : PseudoConstnessAnalysisState)
    (Analysis : ScopeAnalysis) (V : DeclPtr) : PseudoConstnessAnalysisState :=
  if Analysis.WasChanged V then
    { Candidates := S.Candidates.erase V, Changed := insert V S.Changed }
  else if Analysis.WasReferenced V then
    if V ∉ S.Changed then
      if ! IsConst Ctx V then
        { S with Candidates := insert V S.Candidates }
      else S
    else S
  else S

/-- A run of `Eval` steps over a sequence of (scope analysis, variable)
inputs, starting from state `S`. -/
def EvalSeq (Ctx : ASTContext) (S : PseudoConstnessAnalysisState)
    (Inputs : List (ScopeAnalysis × DeclPtr)) : PseudoConstnessAnalysisState :=
  Inputs.foldl (fun St In => Eval Ctx St In.1 In.2) S

/-- `GenerateReports`: one report per candidate, in set order. -/
def GenerateReports (S : PseudoConstnessAnalysisState) : List DeclPtr :=
  S.Candidates.iterate

end PseudoConstnessAnalysisState

/-! ## Statements and expressions of a scope -/

/-- Opcodes of `clang::UnaryOperator`. -/
inductive UnaryOpcode where
  | PostInc | PostDec | PreInc | PreDec
  | AddrOf | Deref | Plus | Minus | Not | LNot
  deriving DecidableEq, Repr

/-- Opcodes of `clang::BinaryOperator`. -/
inductive BinaryOpcode where
  | Mul | Div | Rem | Add | Sub | Shl | Shr
  | LT | GT | LE | GE | EQ | NE
  | And | Xor | Or | LAnd | LOr
  | Assign | MulAssign | DivAssign | RemAssign | AddAssign | SubAssign
  | ShlAssign | ShrAssign | AndAssign | XorAssign | OrAssign
  | Comma
  deriving DecidableEq, Repr

/-- The increment and decrement opcodes `++x`, `--x`, `x++`, `x--`. -/
def UnaryOpcode.isIncrementDecrementOp : UnaryOpcode → Bool
  | .PostInc | .PostDec | .PreInc | .PreDec => true
  | _ => false

/-- The compound assignment opcodes `*= /= %= += -= <<= >>= &= ^= |=`. -/
def BinaryOpcode.isCompoundAssignmentOp : BinaryOpcode → Bool
  | .MulAssign | .DivAssign | .RemAssign | .AddAssign | .SubAssign
  | .ShlAssign | .ShrAssign | .AndAssign | .XorAssign | .OrAssign => true
  | _ => false

/-- The assignment opcodes: `=` and the compound assignments. -/
def BinaryOpcode.isAssignmentOp : BinaryOpcode → Bool
  | .Assign => true
  | Op => Op.isCompoundAssignmentOp

mutual
/-- Expression trees of a scope: references to declared variables, literals,
parentheses, unary and binary operators, member access and calls. -/
inductive Expr where
  | DeclRefExpr (D : DeclPtr)
  | IntegerLiteral (Value : Int)
  | ParenExpr (Sub : Expr)
  | UnaryOperator (Op : UnaryOpcode) (Sub : Expr)
  | BinaryOperator (Op : BinaryOpcode) (LHS RHS : Expr)
  | MemberExpr (Base : Expr) (Member : Nat)
  | CallExpr (Callee : Expr) (Args : ExprList)
  deriving DecidableEq, Repr
/-- Argument lists of calls. -/
inductive ExprList where
  | nil
  | cons (Head : Expr) (Tail : ExprList)
  deriving DecidableEq, Repr
end

mutual
/-- Statement trees of a scope. A declaration statement declares one
variable, with or without an initializer; an absent `else` branch or loop
body is the null statement. -/
inductive Stmt where
  | NullStmt
  | ExprStmt (E : Expr)
  | DeclStmt (D : DeclPtr)
  | DeclStmtInit (D : DeclPtr) (Init : Expr)
  | CompoundStmt (Body : StmtList)
  | IfStmt (Cond : Expr) (Then Else : Stmt)
  | WhileStmt (Cond : Expr) (Body : Stmt)
  | ForStmt (Init : Stmt) (Cond Inc : Expr) (Body : Stmt)
  | ReturnStmt (Value : Expr)
  | ReturnVoidStmt
  deriving DecidableEq, Repr
/-- Statement lists of compound statements. -/
inductive StmtList where
  | nil
  | cons (Head : Stmt) (Tail : StmtList)
  deriving DecidableEq, Repr
end

/-! ## ScopeAnalysis (the walk) -/

namespace ScopeAnalysis

/-- Modelled from the spec: the Scope Result of a tree without variables,
both sets empty. -/
def empty : ScopeAnalysis :=
  { Changed := ∅, Used := ∅ }

/-- Modelled from the spec: accumulation of the classified appearances of
two subtrees, "pure set union". -/
def merge (A B : ScopeAnalysis) : ScopeAnalysis :=
  { Changed := A.Changed ∪ B.Changed, Used := A.Used ∪ B.Used }

end ScopeAnalysis

/-- Modelled from the spec: the operand of an increment or decrement is
looked at "direct or parenthesized"; this strips the parentheses. -/
def Expr.IgnoreParens : Expr → Expr
  | .ParenExpr Sub => Sub.IgnoreParens
  | E => E

/-- Modelled from the spec: "the innermost named Variable Identity at the
root of the target expression", for a target that is `V` or "an expression
rooted at `V`, e.g. `*V`, `V.field`, a dereference/member chain". Other
shapes have no such root. -/
def Expr.Root : Expr → Option DeclPtr
  | .DeclRefExpr D => some D
  | .ParenExpr Sub => Sub.Root
  | .UnaryOperator .Deref Sub => Sub.Root
  | .MemberExpr Base _ => Base.Root
  | _ => none

mutual
/-- Modelled from the spec: §4.1 Scope Analysis on expressions (the file
`ScopeAnalysis.cpp` is absent from the sources). An increment or decrement of
a direct or parenthesized variable is a write on it; a plain or compound
assignment writes the variable at the root of its target, and a compound
assignment reads it as well ("`i += 1` reads and writes `i`"); every other
appearance of a variable is a read, also inside shapes that are not
recognised. -/
def Expr.Analyse : Expr → ScopeAnalysis
  | .DeclRefExpr D => { Changed := ∅, Used := {D} }
  | .IntegerLiteral _ => ScopeAnalysis.empty
  | .ParenExpr Sub => Sub.Analyse
  | .UnaryOperator Op Sub =>
    if Op.isIncrementDecrementOp then
      match Sub.IgnoreParens with
      | .DeclRefExpr D => { Changed := {D}, Used := ∅ }
      | _ => Sub.Analyse
    else Sub.Analyse
  | .BinaryOperator Op LHS RHS =>
    if Op.isAssignmentOp then
      match LHS.Root with
      | some D =>
        ScopeAnalysis.merge
          { Changed := {D}, Used := if Op.isCompoundAssignmentOp then {D} else ∅ }
          RHS.Analyse
      | none => ScopeAnalysis.merge LHS.Analyse RHS.Analyse
    else ScopeAnalysis.merge LHS.Analyse RHS.Analyse
  | .MemberExpr Base _ => Base.Analyse
  | .CallExpr Callee Args => ScopeAnalysis.merge Callee.Analyse Args.Analyse
/-- Modelled from the spec: the arguments of a call are walked one by one. -/
def ExprList.Analyse : ExprList → ScopeAnalysis
  | .nil => ScopeAnalysis.empty
  | .cons Head Tail => ScopeAnalysis.merge Head.Analyse Tail.Analyse
end

mutual
/-- Modelled from the spec: §4.1 Scope Analysis on statements, the union of
what the contained expressions give. A declaration is not a write of the
declared variable (`int i = 0;` carries no expected note in
`test/AnalysisFindsChanges/ByValue.cpp`); its initializer is walked. -/
def Stmt.Analyse : Stmt → ScopeAnalysis
  | .NullStmt => ScopeAnalysis.empty
  | .ExprStmt E => E.Analyse
  | .DeclStmt _ => ScopeAnalysis.empty
  | .DeclStmtInit _ Init => Init.Analyse
  | .CompoundStmt Body => Body.Analyse
  | .IfStmt Cond Then Else =>
    ScopeAnalysis.merge Cond.Analyse (ScopeAnalysis.merge Then.Analyse Else.Analyse)
  | .WhileStmt Cond Body => ScopeAnalysis.merge Cond.Analyse Body.Analyse
  | .ForStmt Init Cond Inc Body =>
    ScopeAnalysis.merge Init.Analyse
      (ScopeAnalysis.merge Cond.Analyse (ScopeAnalysis.merge Inc.Analyse Body.Analyse))
  | .ReturnStmt Value => Value.Analyse
  | .ReturnVoidStmt => ScopeAnalysis.empty
/-- Modelled from the spec: the statements of a compound statement are
walked one by one. -/
def StmtList.Analyse : StmtList → ScopeAnalysis
  | .nil => ScopeAnalysis.empty
  | .cons Head Tail => ScopeAnalysis.merge Head.Analyse Tail.Analyse
end

/-- Modelled from the spec: `ScopeAnalysis::AnalyseThis`, the contract
`analyze(scope) → ScopeResult` of §4.1. -/
def ScopeAnalysis.AnalyseThis (Body : Stmt) : ScopeAnalysis :=
  Body.Analyse

/-- Modelled from the spec: `ScopeAnalysis::DebugChanged` reports the
variables of the Changed set. -/
def ScopeAnalysis.DebugChanged (A : ScopeAnalysis) : List DeclPtr :=
  A.Changed.iterate

/-- Modelled from the spec: `ScopeAnalysis::DebugReferenced` reports the
variables of the Referenced set. -/
def ScopeAnalysis.DebugReferenced (A : ScopeAnalysis) : List DeclPtr :=
  A.Used.iterate

/-! ### Containment of expressions in a scope -/

mutual
/-- An expression together with all expressions nested in it. -/
def Expr.SubExprs : Expr → List Expr
  | .DeclRefExpr D => [.DeclRefExpr D]
  | .IntegerLiteral Value => [.IntegerLiteral Value]
  | .ParenExpr Sub => .ParenExpr Sub :: Sub.SubExprs
  | .UnaryOperator Op Sub => .UnaryOperator Op Sub :: Sub.SubExprs
  | .BinaryOperator Op LHS RHS =>
    .BinaryOperator Op LHS RHS :: (LHS.SubExprs ++ RHS.SubExprs)
  | .MemberExpr Base Member => .MemberExpr Base Member :: Base.SubExprs
  | .CallExpr Callee Args =>
    .CallExpr Callee Args :: (Callee.SubExprs ++ Args.SubExprs)
/-- All expressions nested in an argument list. -/
def ExprList.SubExprs : ExprList → List Expr
  | .nil => []
  | .cons Head Tail => Head.SubExprs ++ Tail.SubExprs
end

mutual
/-- Every expression that occurs anywhere in a statement. -/
def Stmt.Exprs : Stmt → List Expr
  | .NullStmt => []
  | .ExprStmt E => E.SubExprs
  | .DeclStmt _ => []
  | .DeclStmtInit _ Init => Init.SubExprs
  | .CompoundStmt Body => Body.Exprs
  | .IfStmt Cond Then Else => Cond.SubExprs ++ (Then.Exprs ++ Else.Exprs)
  | .WhileStmt Cond Body => Cond.SubExprs ++ Body.Exprs
  | .ForStmt Init Cond Inc Body =>
    Init.Exprs ++ (Cond.SubExprs ++ (Inc.SubExprs ++ Body.Exprs))
  | .ReturnStmt Value => Value.SubExprs
  | .ReturnVoidStmt => []
/-- Every expression that occurs anywhere in a statement list. -/
def StmtList.Exprs : StmtList → List Expr
  | .nil => []
  | .cons Head Tail => Head.Exprs ++ Tail.Exprs
end

/-- The write shapes exercised by `test/AnalysisFindsChanges`: an increment
or decrement applied to `V`, or an assignment operator whose left-hand
operand is `V` or `*V`. -/
def Expr.WritesTo (V : DeclPtr) : Expr → Bool
  | .UnaryOperator Op (.DeclRefExpr D) => Op.isIncrementDecrementOp && decide (D = V)
  | .BinaryOperator Op (.DeclRefExpr D) _ => Op.isAssignmentOp && decide (D = V)
  | .BinaryOperator Op (.UnaryOperator .Deref (.DeclRefExpr D)) _ =>
    Op.isAssignmentOp && decide (D = V)
  | _ => false

/-! ## Declarations -/

/-- The classes of `clang::Decl` the collectors tell apart. `ParmVarDecl`
derives from `VarDecl`; every other kind of declaration is `Other`. -/
inductive DeclKind where
  | VarDecl | ParmVarDecl | FieldDecl | Other
  deriving DecidableEq, Repr

/-- A child of a declaration context: its dynamic class and its address. -/
structure Decl where
  Kind : DeclKind
  Ptr : DeclPtr
  deriving DecidableEq, Repr

/-- The test `clang::dyn_cast<clang::VarDecl const>(D)` succeeds. -/
def Decl.isVarDecl (D : Decl) : Bool :=
  D.Kind = .VarDecl || D.Kind = .ParmVarDecl

/-- The test `clang::dyn_cast<clang::FieldDecl const>(D)` succeeds. -/
def Decl.isFieldDecl (D : Decl) : Bool :=
  D.Kind = .FieldDecl

/-- What the analysis reads through a `clang::FunctionDecl const *`. The
declaration is also a `clang::DeclContext`, with children `decls`. -/
structure FunctionDecl where
  getCanonicalDecl : DeclPtr
  isThisDeclarationADefinition : Bool
  decls : List Decl
  getBody : Option Stmt
  deriving DecidableEq, Repr

/-- What the analysis reads through a `clang::RecordDecl const *`: the
children of this declaration of the record. -/
structure RecordDecl where
  decls : List Decl
  deriving DecidableEq, Repr

/-- Range `field_begin() .. field_end()`: the children that are fields. -/
def RecordDecl.fields (R : RecordDecl) : List Decl :=
  R.decls.filter Decl.isFieldDecl

/-- What the analysis reads through a `clang::CXXRecordDecl const *`; `none`
is a null canonical declaration. -/
structure CXXRecordDecl where
  getCanonicalDecl : Option RecordDecl
  deriving DecidableEq, Repr

/-- What the analysis reads through a `clang::CXXMethodDecl const *`; `none`
is a null parent. -/
structure CXXMethodDecl extends FunctionDecl where
  getParent : Option CXXRecordDecl
  deriving DecidableEq, Repr

/-- `GetVariablesFromContext`, ModuleAnalysis.cpp lines 143-151. -/
def GetVariablesFromContext (F : List Decl) : Variables :=
  F.foldl (fun Result It => if It.isVarDecl then insert It.Ptr Result else Result) ∅

/-- `GetVariablesFromRecord`, ModuleAnalysis.cpp lines 153-161. -/
def GetVariablesFromRecord (F : RecordDecl) : Variables :=
  F.fields.foldl (fun Result It => if It.isFieldDecl then insert It.Ptr Result else Result) ∅

/-- `boost::copy(Src, std::insert_iterator<Variables>(Result, ...))`. -/
def copyInto (Src Result : Variables) : Variables :=
  Src.iterate.foldl (fun R V => insert V R) Result

/-! ## Function wrappers -/

/-- The two concrete classes behind `FunctionWrapper`. -/
inductive FunctionWrapper where
  | FunctionDeclWrapper (Function : FunctionDecl)
  | MethodDeclWrapper (Function : CXXMethodDecl)
  deriving DecidableEq, Repr

namespace FunctionWrapper

/-- `GetFunctionDecl` of both classes. -/
def GetFunctionDecl : FunctionWrapper → FunctionDecl
  | FunctionDeclWrapper Function => Function
  | MethodDeclWrapper Function => Function.toFunctionDecl

/-- `GetVariables` of both classes (lines 176-178 and 197-204). The method
case dereferences `Function->getParent()` and its canonical declaration
without a check; `none` is the run that dereferences a null pointer. -/
def GetVariables : FunctionWrapper → Option Variables
  | FunctionDeclWrapper Function => some (GetVariablesFromContext Function.decls)
  | MethodDeclWrapper Function =>
    let Result := copyInto (GetVariablesFromContext Function.decls) ∅
    match Function.getParent with
    | none => none
    | some Parent =>
      match Parent.getCanonicalDecl with
      | none => none
      | some Canonical => some (copyInto (GetVariablesFromRecord Canonical) Result)

/-- `DumpVariableDeclaration`: one note per relevant variable. -/
def DumpVariableDeclaration (W : FunctionWrapper) : Option (List DeclPtr) :=
  W.GetVariables.map Variables.iterate

/-- `DumpVariableChanges`, lines 123-127. -/
def DumpVariableChanges (W : FunctionWrapper) : Option (List DeclPtr) :=
  W.GetFunctionDecl.getBody.map fun Body => (ScopeAnalysis.AnalyseThis Body).DebugChanged

/-- `DumpVariableUsages`, lines 129-133. -/
def DumpVariableUsages (W : FunctionWrapper) : Option (List DeclPtr) :=
  W.GetFunctionDecl.getBody.map fun Body => (ScopeAnalysis.AnalyseThis Body).DebugReferenced

/-- `CheckPseudoConstness`, lines 135-141: `Eval` is called once for each
element of `GetVariables()`, in set order, with the analysis of the body. -/
def CheckPseudoConstness (Ctx : ASTContext) (State : PseudoConstnessAnalysisState)
    (W : FunctionWrapper) : Option PseudoConstnessAnalysisState :=
  match W.GetFunctionDecl.getBody with
  | none => none
  | some Body =>
    let Analysis := ScopeAnalysis.AnalyseThis Body
    match W.GetVariables with
    | none => none
    | some Vars =>
      some (Vars.iterate.foldl (fun S V => PseudoConstnessAnalysisState.Eval Ctx S Analysis V) State)

end FunctionWrapper

/-! ## FunctionCollector -/

/-- `std::map<clang::FunctionDecl const *, FunctionWrapperPtr>`: entries in
ascending key order, one per key. -/
abbrev FunctionWrapperPtrs := List (DeclPtr × FunctionWrapper)

/-- `Functions[CD] = W`: the entry for `CD` is created at its place in key
order or, when there is one, overwritten. -/
def FunctionWrapperPtrs.assign :
    FunctionWrapperPtrs → DeclPtr → FunctionWrapper → FunctionWrapperPtrs
  | [], CD, W => [(CD, W)]
  | (K, W0) :: Rest, CD, W =>
    if CD < K then (CD, W) :: (K, W0) :: Rest
    else if CD = K then (CD, W) :: Rest
    else (K, W0) :: assign Rest CD W

/-- The member `Functions` of `class FunctionCollector`. -/
structure FunctionCollector where
  Functions : FunctionWrapperPtrs
  deriving DecidableEq, Repr

/-- One call of a visitor method by the AST traversal. -/
inductive Visit where
  | VisitFunctionDecl (F : FunctionDecl)
  | VisitCXXMethodDecl (F : CXXMethodDecl)
  deriving DecidableEq, Repr

namespace FunctionCollector

/-- A freshly constructed collector. -/
def init : FunctionCollector :=
  { Functions := [] }

/-- `VisitFunctionDecl`, lines 242-248 (the method returns `true`). -/
def VisitFunctionDecl (C : FunctionCollector) (F : FunctionDecl) : FunctionCollector :=
  let CD := F.getCanonicalDecl
  if F.isThisDeclarationADefinition then
    { Functions := C.Functions.assign CD (.FunctionDeclWrapper F) }
  else C

/-- `VisitCXXMethodDecl`, lines 250-256 (the method returns `true`). -/
def VisitCXXMethodDecl (C : FunctionCollector) (F : CXXMethodDecl) : FunctionCollector :=
  let CD := F.getCanonicalDecl
  if F.isThisDeclarationADefinition then
    { Functions := C.Functions.assign CD (.MethodDeclWrapper F) }
  else C

/-- Dispatch of one visitor call. -/
def Step (C : FunctionCollector) : Visit → FunctionCollector
  | .VisitFunctionDecl F => C.VisitFunctionDecl F
  | .VisitCXXMethodDecl F => C.VisitCXXMethodDecl F

/-- A sequence of visitor calls applied to a collector. -/
def Steps (C : FunctionCollector) (Visits : List Visit) : FunctionCollector :=
  Visits.foldl Step C

/-- The fold of `DumpPseudoConstness` (lines 235-237): every collected
wrapper, in key order, checks against one shared state. -/
def CheckAll (Ctx : ASTContext) (C : FunctionCollector) :
    Option PseudoConstnessAnalysisState :=
  C.Functions.foldl
    (fun State Entry => State.bind fun S => Entry.2.CheckPseudoConstness Ctx S)
    (some PseudoConstnessAnalysisState.init)

/-- `DumpPseudoConstness`, lines 234-239: the reports generated from the
final state. -/
def DumpPseudoConstness (Ctx : ASTContext) (C : FunctionCollector) :
    Option (List DeclPtr) :=
  (C.CheckAll Ctx).map PseudoConstnessAnalysisState.GenerateReports

end FunctionCollector

/-! ### Last-visited-wins, as the specification words it -/

/-- The declaration handed to a visitor call. -/
def Visit.Decl : Visit → FunctionDecl
  | .VisitFunctionDecl F => F
  | .VisitCXXMethodDecl F => F.toFunctionDecl

/-- A compound statement from the list of its statements. -/
def StmtList.ofList : List Stmt → StmtList
  | [] => .nil
  | S :: Rest => .cons S (ofList Rest)

namespace Example

/-- `x op= n` for a variable at address `x`. -/
def assignTo (Op : BinaryOpcode) (x : DeclPtr) (n : Int) : Stmt :=
  .ExprStmt (.BinaryOperator Op (.DeclRefExpr x) (.IntegerLiteral n))

/-- `*p op= n` for a pointer variable at address `p`. -/
def assignThrough (Op : BinaryOpcode) (p : DeclPtr) (n : Int) : Stmt :=
  .ExprStmt (.BinaryOperator Op (.UnaryOperator .Deref (.DeclRefExpr p)) (.IntegerLiteral n))

/-- Body of `unary_operators` in `test/AnalysisFindsChanges/ByValue.cpp`,
with `i` at address 1. -/
def ByValue_unary_operators : Stmt :=
  .CompoundStmt (.ofList
    [ .DeclStmtInit 1 (.IntegerLiteral 0),
      .ExprStmt (.UnaryOperator .PreInc (.DeclRefExpr 1)),
      .ExprStmt (.UnaryOperator .PreDec (.DeclRefExpr 1)),
      .ExprStmt (.UnaryOperator .PostInc (.DeclRefExpr 1)),
      .ExprStmt (.UnaryOperator .PostDec (.DeclRefExpr 1)) ])

/-- Body of `binary_operators` in `test/AnalysisFindsChanges/ByValue.cpp`,
with `i` at address 1 and `j` at address 2. -/
def ByValue_binary_operators : Stmt :=
  .CompoundStmt (.ofList
    [ .DeclStmtInit 1 (.IntegerLiteral 0),
      assignTo .Assign 1 1, assignTo .MulAssign 1 1, assignTo .DivAssign 1 1,
      assignTo .RemAssign 1 2, assignTo .AddAssign 1 2, assignTo .SubAssign 1 2,
      assignTo .ShlAssign 1 1, assignTo .ShrAssign 1 1, assignTo .OrAssign 1 2,
      assignTo .XorAssign 1 2, assignTo .AndAssign 1 1,
      .DeclStmtInit 2 (.IntegerLiteral 0),
      .ExprStmt (.BinaryOperator .Assign (.DeclRefExpr 1)
        (.UnaryOperator .PreInc (.DeclRefExpr 2))) ])

/-- Body of `change_in_for_loop` in `test/AnalysisFindsChanges/ByValue.cpp`,
with `i` at address 1. -/
def ByValue_change_in_for_loop : Stmt :=
  .CompoundStmt (.ofList
    [ .ForStmt (.DeclStmtInit 1 (.IntegerLiteral 0))
        (.BinaryOperator .LT (.DeclRefExpr 1) (.IntegerLiteral 10))
        (.UnaryOperator .PreInc (.DeclRefExpr 1))
        .NullStmt ])

/-- Body of `declaration_statements` in
`test/AnalysisFindsChanges/ByValue.cpp`, with `i` at address 1 and `j` at
address 2. -/
def ByValue_declaration_statements : Stmt :=
  .CompoundStmt (.ofList
    [ .DeclStmt 1, .DeclStmt 2,
      .ExprStmt (.BinaryOperator .Assign (.DeclRefExpr 1) (.DeclRefExpr 2)) ])

/-- Body of `unary_operators` in `test/AnalysisFindsChanges/ByPointer.cpp`,
with `i` at address 1 and `iptr` at address 2. -/
def ByPointer_unary_operators : Stmt :=
  .CompoundStmt (.ofList
    [ .DeclStmtInit 1 (.IntegerLiteral 0),
      .DeclStmtInit 2 (.UnaryOperator .AddrOf (.DeclRefExpr 1)),
      .ExprStmt (.UnaryOperator .PreInc (.DeclRefExpr 2)),
      .ExprStmt (.UnaryOperator .PreDec (.DeclRefExpr 2)),
      .ExprStmt (.UnaryOperator .PostInc (.DeclRefExpr 2)),
      .ExprStmt (.UnaryOperator .PostDec (.DeclRefExpr 2)) ])

/-- Body of `binary_operators` in `test/AnalysisFindsChanges/ByPointer.cpp`,
with `i` at address 1 and `iptr` at address 2. -/
def ByPointer_binary_operators : Stmt :=
  .CompoundStmt (.ofList
    [ .DeclStmtInit 1 (.IntegerLiteral 0),
      .DeclStmtInit 2 (.UnaryOperator .AddrOf (.DeclRefExpr 1)),
      assignThrough .Assign 2 1, assignThrough .MulAssign 2 1, assignThrough .DivAssign 2 1,
      assignThrough .RemAssign 2 2, assignThrough .AddAssign 2 2,
      assignThrough .SubAssign 2 2, assignThrough .ShlAssign 2 1,
      assignThrough .ShrAssign 2 1, assignThrough .OrAssign 2 2,
      assignThrough .XorAssign 2 2, assignThrough .AndAssign 2 1 ])

/-- The function `int f(int p) { int L = p; return L; }`: parameter `p` at
address 1, local variable `L` at address 2. clang keeps a block-scope
variable in the declaration context of the enclosing function, next to the
parameters. -/
def ReadOnlyLocal : FunctionDecl :=
  { getCanonicalDecl := 100
    isThisDeclarationADefinition := true
    decls := [⟨.ParmVarDecl, 1⟩, ⟨.VarDecl, 2⟩]
    getBody := some (.CompoundStmt (.ofList
      [ .DeclStmtInit 2 (.DeclRefExpr 1), .ReturnStmt (.DeclRefExpr 2) ])) }

/-- The function `void f(int i) { i = 1; }`, parameter `i` at address 1. -/
def AssignsParameter : FunctionDecl :=
  { getCanonicalDecl := 300
    isThisDeclarationADefinition := true
    decls := [⟨.ParmVarDecl, 1⟩]
    getBody := some (.CompoundStmt (.ofList [ assignTo .Assign 1 1 ])) }

/-- The function `int f(int n) { return n; }`, parameter `n` at address 1;
also `int f(int const x) { return x; }` when the type at address 1 is
const. -/
def ReturnsParameter : FunctionDecl :=
  { getCanonicalDecl := 400
    isThisDeclarationADefinition := true
    decls := [⟨.ParmVarDecl, 1⟩]
    getBody := some (.CompoundStmt (.ofList [ .ReturnStmt (.DeclRefExpr 1) ])) }

/-- A forward declaration `int f(int n);` of the same function. -/
def DeclaresOnly : FunctionDecl :=
  { getCanonicalDecl := 400
    isThisDeclarationADefinition := false
    decls := [⟨.ParmVarDecl, 3⟩]
    getBody := none }

/-- The record `struct S { int f; int get(); void set(); }` with field `f`
at address 7 and the two methods at addresses 500 and 600. -/
def RecordS : CXXRecordDecl :=
  { getCanonicalDecl := some { decls := [⟨.FieldDecl, 7⟩, ⟨.Other, 500⟩, ⟨.Other, 600⟩] } }

/-- The method `int S::get() { return f; }`. -/
def MethodReadsField : CXXMethodDecl :=
  { getCanonicalDecl := 500
    isThisDeclarationADefinition := true
    decls := []
    getBody := some (.CompoundStmt (.ofList [ .ReturnStmt (.DeclRefExpr 7) ]))
    getParent := some RecordS }

/-- The method `void S::set() { f = 1; }`. -/
def MethodWritesField : CXXMethodDecl :=
  { getCanonicalDecl := 600
    isThisDeclarationADefinition := true
    decls := []
    getBody := some (.CompoundStmt (.ofList [ assignTo .Assign 7 1 ]))
    getParent := some RecordS }

/-- Every variable is of type `int const`. -/
def AllIntConst : ASTContext :=
  { getType := fun _ => .value true }

/-- Every variable is of type `int`. -/
def AllInt : ASTContext :=
  { getType := fun _ => .value false }

end Example

open PseudoConstnessAnalysisState

/-! ## Helper lemmas: one `Eval` step and runs of steps -/

theorem State_eq {S T : PseudoConstnessAnalysisState}
    (h₁ : S.Candidates = T.Candidates) (h₂ : S.Changed = T.Changed) : S = T := by
  cases S; cases T; simp_all

theorem mem_Eval_Changed (Ctx : ASTContext) (S : PseudoConstnessAnalysisState)
    (A : ScopeAnalysis) (V W : DeclPtr) :
    W ∈ (Eval Ctx S A V).Changed ↔ W ∈ S.Changed ∨ (W = V ∧ A.WasChanged V = true) := by
  unfold Eval
  split_ifs <;> simp_all
  tauto

theorem mem_Eval_Candidates (Ctx : ASTContext) (S : PseudoConstnessAnalysisState)
    (A : ScopeAnalysis) (V W : DeclPtr) :
    W ∈ (Eval Ctx S A V).Candidates ↔
      (W ∈ S.Candidates ∧ ¬ (W = V ∧ A.WasChanged V = true)) ∨
      (W = V ∧ A.WasChanged V = false ∧ A.WasReferenced V = true ∧ V ∉ S.Changed ∧
        IsConst Ctx V = false) := by
  unfold Eval
  split_ifs <;> simp_all <;> tauto

theorem EvalSeq_nil (Ctx : ASTContext) (S : PseudoConstnessAnalysisState) :
    EvalSeq Ctx S [] = S := rfl

theorem EvalSeq_cons (Ctx : ASTContext) (S : PseudoConstnessAnalysisState)
    (In : ScopeAnalysis × DeclPtr) (Rest : List (ScopeAnalysis × DeclPtr)) :
    EvalSeq Ctx S (In :: Rest) = EvalSeq Ctx (Eval Ctx S In.1 In.2) Rest := rfl

theorem EvalSeq_append (Ctx : ASTContext) (S : PseudoConstnessAnalysisState)
    (L₁ L₂ : List (ScopeAnalysis × DeclPtr)) :
    EvalSeq Ctx S (L₁ ++ L₂) = EvalSeq Ctx (EvalSeq Ctx S L₁) L₂ := by
  simp [EvalSeq, List.foldl_append]

/-- Membership in `Changed` after a run from any state. -/
theorem mem_EvalSeq_Changed (Ctx : ASTContext) (Inputs : List (ScopeAnalysis × DeclPtr)) :
    ∀ (S : PseudoConstnessAnalysisState) (W : DeclPtr),
      W ∈ (EvalSeq Ctx S Inputs).Changed ↔
        W ∈ S.Changed ∨ ∃ In ∈ Inputs, In.2 = W ∧ In.1.WasChanged W = true := by
  induction Inputs with
  | nil => intro S W; simp [EvalSeq_nil]
  | cons In Rest ih =>
    intro S W
    rw [EvalSeq_cons, ih, mem_Eval_Changed]
    constructor
    · rintro ((h | ⟨rfl, h⟩) | ⟨In2, hmem, h⟩)
      · exact Or.inl h
      · exact Or.inr ⟨In, List.mem_cons_self _ _, rfl, h⟩
      · exact Or.inr ⟨In2, List.mem_cons_of_mem _ hmem, h⟩
    · rintro (h | ⟨In2, hmem, h1, h2⟩)
      · exact Or.inl (Or.inl h)
      · rcases List.mem_cons.1 hmem with rfl | hmem
        · exact Or.inl (Or.inr ⟨h1.symm, h1 ▸ h2⟩)
        · exact Or.inr ⟨In2, hmem, h1, h2⟩

/-- Candidates and Changed stay disjoint along a run. -/
theorem EvalSeq_disjoint (Ctx : ASTContext) (Inputs : List (ScopeAnalysis × DeclPtr)) :
    ∀ (S : PseudoConstnessAnalysisState), Disjoint S.Candidates S.Changed →
      Disjoint (EvalSeq Ctx S Inputs).Candidates (EvalSeq Ctx S Inputs).Changed := by
  induction Inputs with
  | nil => intro S h; simpa [EvalSeq_nil] using h
  | cons In Rest ih =>
    intro S h
    rw [EvalSeq_cons]
    apply ih
    rw [Finset.disjoint_left] at h ⊢
    intro W hW hW2
    rw [mem_Eval_Candidates] at hW
    rw [mem_Eval_Changed] at hW2
    rcases hW with ⟨h1, h2⟩ | ⟨rfl, h1, -, h3, -⟩
    · rcases hW2 with h3 | h3
      · exact h h1 h3
      · exact h2 h3
    · rcases hW2 with h4 | ⟨-, h4⟩
      · exact h3 h4
      · simp [h1] at h4

/-- Membership in `Candidates` after a run from a state whose two sets are
disjoint. -/
theorem mem_EvalSeq_Candidates (Ctx : ASTContext) (Inputs : List (ScopeAnalysis × DeclPtr)) :
    ∀ (S : PseudoConstnessAnalysisState) (W : DeclPtr),
      W ∈ (EvalSeq Ctx S Inputs).Candidates ↔
        (∀ In ∈ Inputs, In.2 = W → In.1.WasChanged W = false) ∧
        (W ∈ S.Candidates ∨
          (W ∉ S.Changed ∧ IsConst Ctx W = false ∧
            ∃ In ∈ Inputs, In.2 = W ∧ In.1.WasReferenced W = true)) := by
  induction Inputs with
  | nil => intro S W; simp [EvalSeq_nil]
  | cons In Rest ih =>
    intro S W
    rw [EvalSeq_cons, ih, mem_Eval_Candidates, mem_Eval_Changed]
    simp only [List.mem_cons, forall_eq_or_imp, exists_eq_or_imp]
    by_cases hV : In.2 = W
    · subst hV
      cases hc : In.1.WasChanged In.2 <;> cases hr : In.1.WasReferenced In.2 <;>
        (simp; try tauto)
    · have hV2 : ¬ W = In.2 := fun h => hV h.symm
      simp [hV, hV2]

/-- Two `Eval` steps commute, from every state. -/
theorem Eval_comm (Ctx : ASTContext) (S : PseudoConstnessAnalysisState)
    (In₁ In₂ : ScopeAnalysis × DeclPtr) :
    Eval Ctx (Eval Ctx S In₁.1 In₁.2) In₂.1 In₂.2 =
      Eval Ctx (Eval Ctx S In₂.1 In₂.2) In₁.1 In₁.2 := by
  apply State_eq
  · ext W
    simp only [mem_Eval_Candidates, mem_Eval_Changed]
    by_cases h1 : W = In₁.2 <;> by_cases h2 : W = In₂.2 <;>
      cases In₁.1.WasChanged In₁.2 <;> cases In₂.1.WasChanged In₂.2 <;>
      (simp_all; try tauto)
  · ext W
    simp only [mem_Eval_Changed]
    tauto

/-! ## The aggregation state machine -/

/-- C10. Single fold step. `Eval(A, V)` yields (Candidates without V,
Changed with V) when `A.WasChanged(V)`; otherwise (Candidates with V,
Changed) when `A.WasReferenced(V)`, V is not in Changed and the type of V is
not already const; otherwise the state is unchanged. In every case the
membership of every other variable in both sets is unchanged, and taking the
same step twice gives the same state as taking it once. -/
theorem Eval_single_step (Ctx : ASTContext) (S : PseudoConstnessAnalysisState)
    (A : ScopeAnalysis) (V : DeclPtr) :
    (A.WasChanged V = true →
      Eval Ctx S A V = { Candidates := S.Candidates \ {V}, Changed := S.Changed ∪ {V} }) ∧
    (A.WasChanged V = false → A.WasReferenced V = true → V ∉ S.Changed →
      IsConst Ctx V = false →
      Eval Ctx S A V = { Candidates := S.Candidates ∪ {V}, Changed := S.Changed }) ∧
    (A.WasChanged V = false →
      ¬ (A.WasReferenced V = true ∧ V ∉ S.Changed ∧ IsConst Ctx V = false) →
      Eval Ctx S A V = S) ∧
    (∀ W, W ≠ V →
      (W ∈ (Eval Ctx S A V).Candidates ↔ W ∈ S.Candidates) ∧
      (W ∈ (Eval Ctx S A V).Changed ↔ W ∈ S.Changed)) ∧
    Eval Ctx (Eval Ctx S A V) A V = Eval Ctx S A V := by
  have bool_false : ∀ b : Bool, b = false ↔ ¬ b = true := by decide
  refine ⟨?_, ?_, ?_, ?_, ?_⟩
  · intro h
    apply State_eq <;> ext W <;>
      simp only [mem_Eval_Candidates, mem_Eval_Changed, Finset.mem_sdiff, Finset.mem_union,
        Finset.mem_singleton, bool_false] <;> tauto
  · intro h1 h2 h3 h4
    rw [bool_false] at h1 h4
    apply State_eq <;> ext W <;>
      simp only [mem_Eval_Candidates, mem_Eval_Changed, Finset.mem_sdiff, Finset.mem_union,
        Finset.mem_singleton, bool_false] <;> tauto
  · intro h1 h2
    rw [bool_false] at h1
    simp only [bool_false] at h2
    apply State_eq <;> ext W <;>
      simp only [mem_Eval_Candidates, mem_Eval_Changed, bool_false] <;>
      by_cases hW : W = V <;> [subst hW; skip; subst hW; skip] <;> tauto
  · intro W hW
    simp only [mem_Eval_Candidates, mem_Eval_Changed]
    tauto
  · apply State_eq <;> ext W <;>
      simp only [mem_Eval_Candidates, mem_Eval_Changed, bool_false] <;> tauto

/-- Witness for C10 on the three branches of one step. -/
theorem Eval_single_step_witness :
    (Eval Example.AllInt ⟨{1, 2}, ∅⟩ ⟨{1}, {1}⟩ 1 = ⟨{2}, {1}⟩) ∧
    (Eval Example.AllInt ⟨{2}, ∅⟩ ⟨∅, {1}⟩ 1 = ⟨{1, 2}, ∅⟩) ∧
    (Eval ⟨fun _ => .value true⟩ ⟨{2}, ∅⟩ ⟨∅, {1}⟩ 1 = ⟨{2}, ∅⟩) := by
  have h₁ := (Eval_single_step Example.AllInt ⟨{1, 2}, ∅⟩ ⟨{1}, {1}⟩ 1).1 (by decide)
  have h₂ := (Eval_single_step Example.AllInt ⟨{2}, ∅⟩ ⟨∅, {1}⟩ 1).2.1
    (by decide) (by decide) (by decide) (by decide)
  have h₃ := (Eval_single_step ⟨fun _ => .value true⟩ ⟨{2}, ∅⟩ ⟨∅, {1}⟩ 1).2.2.1
    (by decide) (by decide)
  refine ⟨?_, ?_, ?_⟩
  · rw [h₁]; decide
  · rw [h₂]; decide
  · rw [h₃]

/-- C1. Order independence of the fold: folding `Eval` from the empty state
over a sequence of (scope analysis, variable) inputs and over any permutation
of it gives the same Candidates and the same Changed; in particular a field
read by one method and written by another is excluded from Candidates
whichever of the two methods is processed first. -/
theorem EvalSeq_order_independent (Ctx : ASTContext)
    (L₁ L₂ : List (ScopeAnalysis × DeclPtr)) (h : List.Perm L₁ L₂) :
    ((EvalSeq Ctx init L₁).Candidates = (EvalSeq Ctx init L₂).Candidates ∧
      (EvalSeq Ctx init L₁).Changed = (EvalSeq Ctx init L₂).Changed) ∧
    (∀ (Reader Writer : List (ScopeAnalysis × DeclPtr)) (Writes : ScopeAnalysis)
      (F : DeclPtr), (Writes, F) ∈ Writer → Writes.WasChanged F = true →
      F ∉ (EvalSeq Ctx init (Reader ++ Writer)).Candidates ∧
      F ∉ (EvalSeq Ctx init (Writer ++ Reader)).Candidates) := by
  have key : EvalSeq Ctx init L₁ = EvalSeq Ctx init L₂ := by
    unfold EvalSeq
    exact h.foldl_eq' (fun x _ y _ z => Eval_comm Ctx z x y) init
  refine ⟨⟨by rw [key], by rw [key]⟩, ?_⟩
  intro Reader Writer Writes F hmem hF
  constructor <;>
  · rw [mem_EvalSeq_Candidates]
    intro hall
    have := hall.1 (Writes, F) (by simp [hmem]) rfl
    simp [hF] at this

/-- Witness for C1: a method that only reads field 7 and a method that
writes it, in both orders. -/
theorem EvalSeq_order_independent_witness :
    List.Perm [((⟨∅, {7}⟩ : ScopeAnalysis), 7), (⟨{7}, ∅⟩, 7)]
      [((⟨{7}, ∅⟩ : ScopeAnalysis), 7), (⟨∅, {7}⟩, 7)] ∧
    (EvalSeq Example.AllInt init [(⟨∅, {7}⟩, 7), (⟨{7}, ∅⟩, 7)]).Candidates =
      (EvalSeq Example.AllInt init [(⟨{7}, ∅⟩, 7), (⟨∅, {7}⟩, 7)]).Candidates ∧
    7 ∉ (EvalSeq Example.AllInt init [(⟨{7}, ∅⟩, 7), (⟨∅, {7}⟩, 7)]).Candidates ∧
    7 ∉ (EvalSeq Example.AllInt init [(⟨∅, {7}⟩, 7), (⟨{7}, ∅⟩, 7)]).Candidates :=
  ⟨List.Perm.swap _ _ _,
    (EvalSeq_order_independent Example.AllInt _ _ (List.Perm.swap _ _ _)).1.1,
    by decide, by decide⟩

/-- C2. Closed form of the final report set: after folding `Eval` from the
empty state over any sequence of inputs, V is a candidate exactly when its
type is not already const, no processed pair for V has `WasChanged(V)` and
at least one processed pair for V has `WasReferenced(V)`. A single pair
whose analysis references n without changing it, n not const, gives
Candidates = {n}; a single pair whose analysis changes i gives no
candidate. -/
theorem Candidates_closed_form (Ctx : ASTContext) :
    (∀ (Inputs : List (ScopeAnalysis × DeclPtr)) (V : DeclPtr),
      V ∈ (EvalSeq Ctx init Inputs).Candidates ↔
        IsConst Ctx V = false ∧
        (∀ In ∈ Inputs, In.2 = V → In.1.WasChanged V = false) ∧
        (∃ In ∈ Inputs, In.2 = V ∧ In.1.WasReferenced V = true)) ∧
    (∀ (A : ScopeAnalysis) (n : DeclPtr), A.WasReferenced n = true →
      A.WasChanged n = false → IsConst Ctx n = false →
      (EvalSeq Ctx init [(A, n)]).Candidates = {n}) ∧
    (∀ (A : ScopeAnalysis) (i : DeclPtr), A.WasChanged i = true →
      (EvalSeq Ctx init [(A, i)]).Candidates = ∅) := by
  refine ⟨?_, ?_, ?_⟩
  · intro Inputs V
    rw [mem_EvalSeq_Candidates]
    simp only [init, Finset.not_mem_empty, false_or, not_false_eq_true, true_and]
    tauto
  · intro A n h1 h2 h3
    ext W
    rw [mem_EvalSeq_Candidates]
    simp only [init, Finset.not_mem_empty, false_or, not_false_eq_true, true_and,
      List.mem_singleton, forall_eq, exists_eq_left, Finset.mem_singleton]
    constructor
    · rintro ⟨-, -, h, -⟩
      exact h.symm
    · rintro rfl
      exact ⟨fun _ => h2, h3, rfl, h1⟩
  · intro A i h
    ext W
    rw [mem_EvalSeq_Candidates]
    simp only [init, Finset.not_mem_empty, false_or, not_false_eq_true, true_and,
      List.mem_singleton, forall_eq, exists_eq_left, iff_false, not_and]
    intro h1 _ h2
    have := h1 h2
    rw [← h2, h] at this
    cases this

/-- Witness for C2 on the bodies `return n;` and `i = 1;`, with `n` at
address 1 and `i` at address 2, both of type `int`. -/
theorem Candidates_closed_form_witness :
    (EvalSeq Example.AllInt init
      [(ScopeAnalysis.AnalyseThis (.ReturnStmt (.DeclRefExpr 1)), 1)]).Candidates = {1} ∧
    (EvalSeq Example.AllInt init
      [(ScopeAnalysis.AnalyseThis
        (.ExprStmt (.BinaryOperator .Assign (.DeclRefExpr 2) (.IntegerLiteral 1))), 2)]).Candidates
      = ∅ :=
  ⟨(Candidates_closed_form Example.AllInt).2.1 _ 1 (by decide) (by decide) (by decide),
    (Candidates_closed_form Example.AllInt).2.2 _ 2 (by decide)⟩

/-- C3. Monotonic exclusion: once a step `Eval(A, V)` with `A.WasChanged(V)`
has been made in a run from the empty state, V is in Changed and not in
Candidates after that step and after every later step, whatever the later
inputs are; Changed never loses an element, and Candidates and Changed are
disjoint in every state reachable from the empty state. -/
theorem Changed_monotonic_exclusion (Ctx : ASTContext)
    (Before After : List (ScopeAnalysis × DeclPtr)) (A : ScopeAnalysis) (V : DeclPtr)
    (h : A.WasChanged V = true) :
    (V ∈ (EvalSeq Ctx init (Before ++ (A, V) :: After)).Changed ∧
      V ∉ (EvalSeq Ctx init (Before ++ (A, V) :: After)).Candidates) ∧
    (∀ (S : PseudoConstnessAnalysisState) (Inputs : List (ScopeAnalysis × DeclPtr)),
      S.Changed ⊆ (EvalSeq Ctx S Inputs).Changed) ∧
    (∀ Inputs : List (ScopeAnalysis × DeclPtr),
      Disjoint (EvalSeq Ctx init Inputs).Candidates (EvalSeq Ctx init Inputs).Changed) := by
  have hdisj : ∀ Inputs : List (ScopeAnalysis × DeclPtr),
      Disjoint (EvalSeq Ctx init Inputs).Candidates (EvalSeq Ctx init Inputs).Changed := by
    intro Inputs
    apply EvalSeq_disjoint
    simp [init]
  have hmem : V ∈ (EvalSeq Ctx init (Before ++ (A, V) :: After)).Changed := by
    rw [mem_EvalSeq_Changed]
    exact Or.inr ⟨(A, V), by simp, rfl, h⟩
  refine ⟨⟨hmem, ?_⟩, ?_, hdisj⟩
  · intro hc
    exact Finset.disjoint_left.1 (hdisj _) hc hmem
  · intro S Inputs W hW
    rw [mem_EvalSeq_Changed]
    exact Or.inl hW

/-- Witness for C3: variable 1 is read, then written, then read twice. -/
theorem Changed_monotonic_exclusion_witness :
    (⟨{1}, ∅⟩ : ScopeAnalysis).WasChanged 1 = true ∧
    1 ∈ (EvalSeq Example.AllInt init
      ([(⟨∅, {1}⟩, 1)] ++ (⟨{1}, ∅⟩, 1) :: [(⟨∅, {1}⟩, 1), (⟨∅, {1}⟩, 1)])).Changed ∧
    1 ∉ (EvalSeq Example.AllInt init
      ([(⟨∅, {1}⟩, 1)] ++ (⟨{1}, ∅⟩, 1) :: [(⟨∅, {1}⟩, 1), (⟨∅, {1}⟩, 1)])).Candidates :=
  ⟨by decide,
    (Changed_monotonic_exclusion Example.AllInt [(⟨∅, {1}⟩, 1)]
      [(⟨∅, {1}⟩, 1), (⟨∅, {1}⟩, 1)] ⟨{1}, ∅⟩ 1 (by decide)).1⟩

/-- C4. Already-immutable exclusion: a variable whose type, after stripping
a reference, is const-qualified is not in Candidates in any state reachable
from the empty state by `Eval` steps, whatever the inputs are. -/
theorem IsConst_never_candidate (Ctx : ASTContext) (V : DeclPtr)
    (h : IsConst Ctx V = true) (Inputs : List (ScopeAnalysis × DeclPtr)) :
    V ∉ (EvalSeq Ctx init Inputs).Candidates := by
  rw [mem_EvalSeq_Candidates]
  simp [init, h]

/-- Witness for C4: parameter `int const x` (address 1), also as
`int const & x`, read by two scopes. -/
theorem IsConst_never_candidate_witness :
    IsConst ⟨fun _ => .value true⟩ 1 = true ∧
    IsConst ⟨fun _ => .reference true⟩ 1 = true ∧
    1 ∉ (EvalSeq ⟨fun _ => .value true⟩ init [(⟨∅, {1}⟩, 1), (⟨∅, {1}⟩, 1)]).Candidates ∧
    1 ∉ (EvalSeq ⟨fun _ => .reference true⟩ init [(⟨∅, {1}⟩, 1)]).Candidates :=
  ⟨by decide, by decide,
    IsConst_never_candidate ⟨fun _ => .value true⟩ 1 (by decide) _,
    IsConst_never_candidate ⟨fun _ => .reference true⟩ 1 (by decide) _⟩

/-! ## Declaration collection -/

theorem mem_iterate (S : Variables) (V : DeclPtr) : V ∈ S.iterate ↔ V ∈ S := by
  obtain ⟨M, hM⟩ := S
  induction M using Quotient.inductionOn with
  | h L =>
    show V ∈ List.insertionSort (· ≤ ·) L ↔ V ∈ L
    exact (List.perm_insertionSort _ L).mem_iff

theorem sorted_iterate (S : Variables) : S.iterate.Pairwise (· < ·) := by
  obtain ⟨M, hM⟩ := S
  induction M using Quotient.inductionOn with
  | h L =>
    show (List.insertionSort (· ≤ ·) L).Pairwise (· < ·)
    have h1 : (List.insertionSort (· ≤ ·) L).Pairwise (· ≤ ·) := List.sorted_insertionSort _ L
    have h2 : (List.insertionSort (· ≤ ·) L).Nodup :=
      (List.perm_insertionSort _ L).nodup_iff.2 hM
    exact (List.pairwise_and_iff.2 ⟨h1, h2⟩).imp (fun h => Nat.lt_of_le_of_ne h.1 h.2)

theorem nodup_iterate (S : Variables) : S.iterate.Nodup :=
  (sorted_iterate S).imp (fun h => Nat.ne_of_lt h)

theorem mem_foldl_insert (L : List DeclPtr) :
    ∀ (R : Variables) (V : DeclPtr),
      V ∈ L.foldl (fun R V => insert V R) R ↔ V ∈ L ∨ V ∈ R := by
  induction L with
  | nil => intro R V; simp
  | cons X Rest ih =>
    intro R V
    rw [List.foldl_cons, ih]
    simp only [Finset.mem_insert, List.mem_cons]
    tauto

theorem copyInto_eq_union (Src R : Variables) : copyInto Src R = Src ∪ R := by
  ext V
  unfold copyInto
  rw [mem_foldl_insert, mem_iterate, Finset.mem_union]

theorem mem_foldl_insert_if (P : Decl → Bool) (L : List Decl) :
    ∀ (R : Variables) (V : DeclPtr),
      V ∈ L.foldl (fun Result It => if P It then insert It.Ptr Result else Result) R ↔
        (∃ D ∈ L, P D = true ∧ D.Ptr = V) ∨ V ∈ R := by
  induction L with
  | nil => intro R V; simp
  | cons X Rest ih =>
    intro R V
    rw [List.foldl_cons, ih]
    simp only [List.mem_cons, exists_eq_or_imp]
    cases hX : P X
    · simp
    · simp only [if_true, Finset.mem_insert, true_and]
      constructor
      · rintro (h | h | h)
        · exact Or.inl (Or.inr h)
        · exact Or.inl (Or.inl h.symm)
        · exact Or.inr h
      · rintro ((h | h) | h)
        · exact Or.inr (Or.inl h.symm)
        · exact Or.inl h
        · exact Or.inr (Or.inr h)

theorem mem_GetVariablesFromContext (F : List Decl) (V : DeclPtr) :
    V ∈ GetVariablesFromContext F ↔ ∃ D ∈ F, D.isVarDecl = true ∧ D.Ptr = V := by
  unfold GetVariablesFromContext
  rw [mem_foldl_insert_if Decl.isVarDecl]
  simp

theorem mem_GetVariablesFromRecord (R : RecordDecl) (V : DeclPtr) :
    V ∈ GetVariablesFromRecord R ↔ ∃ D ∈ R.decls, D.isFieldDecl = true ∧ D.Ptr = V := by
  unfold GetVariablesFromRecord
  rw [mem_foldl_insert_if Decl.isFieldDecl]
  simp only [RecordDecl.fields, List.mem_filter, Finset.not_mem_empty, or_false]
  constructor
  · rintro ⟨D, ⟨h1, -⟩, h2, h3⟩
    exact ⟨D, h1, h2, h3⟩
  · rintro ⟨D, h1, h2, h3⟩
    exact ⟨D, ⟨h1, h2⟩, h2, h3⟩

theorem GetVariables_of_method_eq (F : CXXMethodDecl) :
    FunctionWrapper.GetVariables (.MethodDeclWrapper F) =
      (F.getParent.bind CXXRecordDecl.getCanonicalDecl).map
        (fun C => GetVariablesFromContext F.decls ∪ GetVariablesFromRecord C) := by
  simp only [FunctionWrapper.GetVariables]
  cases hP : F.getParent with
  | none => simp
  | some P =>
    cases hC : P.getCanonicalDecl with
    | none => simp [hC]
    | some C =>
      simp only [Option.some_bind, hC, Option.map_some']
      rw [copyInto_eq_union, copyInto_eq_union, Finset.union_empty, Finset.union_comm]

/-- C7. Relevant variables of a method: `MethodDeclWrapper::GetVariables`
returns exactly the union of the variable declarations that are direct
children of the method's own declaration context and the field declarations
of the canonical declaration of the method's owning record, and each such
variable occurs once in the result. -/
theorem MethodDeclWrapper_GetVariables_is_union (F : CXXMethodDecl) (P : CXXRecordDecl)
    (C : RecordDecl) (hP : F.getParent = some P) (hC : P.getCanonicalDecl = some C) :
    ∃ Vars : Variables,
      FunctionWrapper.GetVariables (.MethodDeclWrapper F) = some Vars ∧
      Vars = GetVariablesFromContext F.decls ∪ GetVariablesFromRecord C ∧
      (∀ V, V ∈ Vars ↔
        (∃ D ∈ F.decls, D.isVarDecl = true ∧ D.Ptr = V) ∨
        (∃ D ∈ C.decls, D.isFieldDecl = true ∧ D.Ptr = V)) ∧
      Vars.iterate.Nodup ∧
      (∀ V ∈ Vars, Vars.iterate.count V = 1) := by
  refine ⟨GetVariablesFromContext F.decls ∪ GetVariablesFromRecord C, ?_, rfl, ?_,
    nodup_iterate _, ?_⟩
  · rw [GetVariables_of_method_eq, hP]
    simp [hC]
  · intro V
    rw [Finset.mem_union, mem_GetVariablesFromContext, mem_GetVariablesFromRecord]
  · intro V hV
    exact List.count_eq_one_of_mem (nodup_iterate _) ((mem_iterate _ V).2 hV)

/-- Witness for C7: a method with the variables 1 and 2 in its context
whose canonical record declares the fields 9 and 7 and a member function
8. -/
theorem MethodDeclWrapper_GetVariables_is_union_witness :
    (FunctionWrapper.GetVariables (.MethodDeclWrapper
        { getCanonicalDecl := 100, isThisDeclarationADefinition := true,
          decls := [⟨.ParmVarDecl, 1⟩, ⟨.VarDecl, 2⟩], getBody := some .NullStmt,
          getParent := some ⟨some ⟨[⟨.FieldDecl, 9⟩, ⟨.Other, 8⟩, ⟨.FieldDecl, 7⟩]⟩⟩ })).map
      Variables.iterate = some [1, 2, 7, 9] := by
  obtain ⟨Vars, h1, h2, -⟩ := MethodDeclWrapper_GetVariables_is_union
    { getCanonicalDecl := 100, isThisDeclarationADefinition := true,
      decls := [⟨.ParmVarDecl, 1⟩, ⟨.VarDecl, 2⟩], getBody := some .NullStmt,
      getParent := some ⟨some ⟨[⟨.FieldDecl, 9⟩, ⟨.Other, 8⟩, ⟨.FieldDecl, 7⟩]⟩⟩ }
    ⟨some ⟨[⟨.FieldDecl, 9⟩, ⟨.Other, 8⟩, ⟨.FieldDecl, 7⟩]⟩⟩
    ⟨[⟨.FieldDecl, 9⟩, ⟨.Other, 8⟩, ⟨.FieldDecl, 7⟩]⟩ rfl rfl
  rw [h1, h2]
  decide

/-- A run that never evaluates `L` leaves the membership of `L` alone. -/
theorem EvalSeq_frame (Ctx : ASTContext) (S : PseudoConstnessAnalysisState)
    (Inputs : List (ScopeAnalysis × DeclPtr)) (L : DeclPtr)
    (h : ∀ In ∈ Inputs, In.2 ≠ L) :
    (L ∈ (EvalSeq Ctx S Inputs).Candidates ↔ L ∈ S.Candidates) ∧
    (L ∈ (EvalSeq Ctx S Inputs).Changed ↔ L ∈ S.Changed) := by
  rw [mem_EvalSeq_Candidates, mem_EvalSeq_Changed]
  constructor
  · constructor
    · rintro ⟨-, h1 | ⟨-, -, In, hIn, h2, -⟩⟩
      · exact h1
      · exact absurd h2 (h In hIn)
    · intro h1
      exact ⟨fun In hIn h2 => absurd h2 (h In hIn), Or.inl h1⟩
  · constructor
    · rintro (h1 | ⟨In, hIn, h2, -⟩)
      · exact h1
      · exact absurd h2 (h In hIn)
    · exact Or.inl

/-- With a body and a variable set, `CheckPseudoConstness` is the run of
`Eval` over the variables in set order, all with the analysis of the body. -/
theorem CheckPseudoConstness_eq (Ctx : ASTContext) (S : PseudoConstnessAnalysisState)
    (W : FunctionWrapper) (Body : Stmt) (Vars : Variables)
    (hB : W.GetFunctionDecl.getBody = some Body) (hV : W.GetVariables = some Vars) :
    W.CheckPseudoConstness Ctx S =
      some (EvalSeq Ctx S (Vars.iterate.map fun V => (ScopeAnalysis.AnalyseThis Body, V))) := by
  simp only [FunctionWrapper.CheckPseudoConstness, hB, hV, EvalSeq, List.foldl_map]

/-- C8 (as stated, refuted). In `int f(int p) { int L = p; return L; }` the
local variable `L` is a variable declaration in the declaration context of
`f` and not a parameter; the analysis of the body reports it as referenced
and not changed; `GetVariables` contains it, `CheckPseudoConstness` calls
`Eval` on it, and it is a candidate after the run. -/
theorem FunctionDeclWrapper_local_variable_is_candidate :
    (⟨.VarDecl, 2⟩ ∈ Example.ReadOnlyLocal.decls ∧
      ⟨.ParmVarDecl, 2⟩ ∉ Example.ReadOnlyLocal.decls) ∧
    Example.ReadOnlyLocal.getBody.map
        (fun Body => (ScopeAnalysis.AnalyseThis Body).WasReferenced 2) = some true ∧
    Example.ReadOnlyLocal.getBody.map
        (fun Body => (ScopeAnalysis.AnalyseThis Body).WasChanged 2) = some false ∧
    (FunctionWrapper.GetVariables (.FunctionDeclWrapper Example.ReadOnlyLocal)).map
        Variables.iterate = some [1, 2] ∧
    (FunctionWrapper.CheckPseudoConstness Example.AllInt init
        (.FunctionDeclWrapper Example.ReadOnlyLocal)).map GenerateReports = some [1, 2] := by
  refine ⟨by decide, ?_, ?_, ?_, ?_⟩ <;> decide

/-- C8 (amended). For every free function with a body, `GetVariables` is
exactly the set of variable declarations (`VarDecl`, parameters included)
that are direct children of the function's declaration context, hence only
parameters when the context lists no other variable. `CheckPseudoConstness`
calls `Eval` on these variables and on no other: a variable `L` that is not
such a child is not evaluated and keeps its membership in Candidates and
Changed, so it is not a candidate after a run from the empty state. -/
theorem FunctionDeclWrapper_GetVariables_context_children (Ctx : ASTContext) (F : FunctionDecl)
    (Body : Stmt) (hB : F.getBody = some Body) :
    FunctionWrapper.GetVariables (.FunctionDeclWrapper F) =
      some (GetVariablesFromContext F.decls) ∧
    (∀ V, V ∈ GetVariablesFromContext F.decls ↔
      ∃ D ∈ F.decls, D.isVarDecl = true ∧ D.Ptr = V) ∧
    ((∀ D ∈ F.decls, D.isVarDecl = true → D.Kind = .ParmVarDecl) →
      ∀ V ∈ GetVariablesFromContext F.decls, ⟨.ParmVarDecl, V⟩ ∈ F.decls) ∧
    (∀ S : PseudoConstnessAnalysisState,
      FunctionWrapper.CheckPseudoConstness Ctx S (.FunctionDeclWrapper F) =
        some (EvalSeq Ctx S ((GetVariablesFromContext F.decls).iterate.map
          fun V => (ScopeAnalysis.AnalyseThis Body, V)))) ∧
    (∀ L : DeclPtr, (∀ D ∈ F.decls, D.isVarDecl = true → D.Ptr ≠ L) →
      L ∉ (GetVariablesFromContext F.decls).iterate ∧
      (∀ S : PseudoConstnessAnalysisState,
        ∃ T, FunctionWrapper.CheckPseudoConstness Ctx S (.FunctionDeclWrapper F) = some T ∧
          (L ∈ T.Candidates ↔ L ∈ S.Candidates) ∧ (L ∈ T.Changed ↔ L ∈ S.Changed)) ∧
      (∃ T, FunctionWrapper.CheckPseudoConstness Ctx init (.FunctionDeclWrapper F) = some T ∧
        L ∉ T.Candidates)) := by
  have hrun : ∀ S : PseudoConstnessAnalysisState,
      FunctionWrapper.CheckPseudoConstness Ctx S (.FunctionDeclWrapper F) =
        some (EvalSeq Ctx S ((GetVariablesFromContext F.decls).iterate.map
          fun V => (ScopeAnalysis.AnalyseThis Body, V))) :=
    fun S => CheckPseudoConstness_eq Ctx S (.FunctionDeclWrapper F) Body _ hB rfl
  refine ⟨rfl, mem_GetVariablesFromContext F.decls, ?_, hrun, ?_⟩
  · intro hP V hV
    obtain ⟨D, hD, hvar, rfl⟩ := (mem_GetVariablesFromContext F.decls V).1 hV
    have hk := hP D hD hvar
    have : D = ⟨.ParmVarDecl, D.Ptr⟩ := by
      cases D
      simp_all
    rw [← this]
    exact hD
  · intro L hL
    have hnot : L ∉ (GetVariablesFromContext F.decls).iterate := by
      rw [mem_iterate, mem_GetVariablesFromContext]
      rintro ⟨D, hD, hvar, hptr⟩
      exact hL D hD hvar hptr
    have hframe : ∀ S : PseudoConstnessAnalysisState,
        (L ∈ (EvalSeq Ctx S ((GetVariablesFromContext F.decls).iterate.map
          fun V => (ScopeAnalysis.AnalyseThis Body, V))).Candidates ↔ L ∈ S.Candidates) ∧
        (L ∈ (EvalSeq Ctx S ((GetVariablesFromContext F.decls).iterate.map
          fun V => (ScopeAnalysis.AnalyseThis Body, V))).Changed ↔ L ∈ S.Changed) := by
      intro S
      apply EvalSeq_frame
      intro In hIn
      obtain ⟨V, hV, rfl⟩ := List.mem_map.1 hIn
      intro hVL
      exact hnot (hVL ▸ hV)
    refine ⟨hnot, fun S => ⟨_, hrun S, hframe S⟩, ⟨_, hrun init, ?_⟩⟩
    rw [(hframe init).1]
    simp [init]

/-- Witness for the amended C8 on `int f(int p) { int L = p; return L; }`:
a variable at address 3, which the context of `f` does not list, is not
evaluated. -/
theorem FunctionDeclWrapper_GetVariables_context_children_witness :
    3 ∉ (GetVariablesFromContext Example.ReadOnlyLocal.decls).iterate ∧
    (GetVariablesFromContext Example.ReadOnlyLocal.decls).iterate = [1, 2] :=
  ⟨((FunctionDeclWrapper_GetVariables_context_children Example.AllInt Example.ReadOnlyLocal _ rfl).2.2.2.2 3
      (by decide)).1,
    by decide⟩

/-! ## Scope analysis: writes are found -/

theorem IgnoreParens_Root : ∀ (E : Expr) (D : DeclPtr),
    E.IgnoreParens = .DeclRefExpr D → E.Root = some D
  | .ParenExpr Sub, D, h => by
    simp only [Expr.IgnoreParens] at h
    simpa [Expr.Root] using IgnoreParens_Root Sub D h
  | .DeclRefExpr D0, D, h => by
    simp only [Expr.IgnoreParens] at h
    simpa [Expr.Root] using h
  | .IntegerLiteral _, _, h => by simp [Expr.IgnoreParens] at h
  | .UnaryOperator _ _, _, h => by simp [Expr.IgnoreParens] at h
  | .BinaryOperator _ _ _, _, h => by simp [Expr.IgnoreParens] at h
  | .MemberExpr _ _, _, h => by simp [Expr.IgnoreParens] at h
  | .CallExpr _ _, _, h => by simp [Expr.IgnoreParens] at h

/-- Nothing inside a target that has a root is classified as a write. -/
theorem Root_no_change : ∀ (E : Expr) (D : DeclPtr), E.Root = some D →
    ∀ X ∈ E.SubExprs, X.Analyse.Changed = ∅
  | .DeclRefExpr D0, D, _, X, hX => by
    simp only [Expr.SubExprs, List.mem_singleton] at hX
    subst hX
    simp [Expr.Analyse]
  | .ParenExpr Sub, D, h, X, hX => by
    simp only [Expr.SubExprs, List.mem_cons] at hX
    simp only [Expr.Root] at h
    rcases hX with rfl | hX
    · rw [Expr.Analyse]
      exact Root_no_change Sub D h Sub (by cases Sub <;> simp [Expr.SubExprs])
    · exact Root_no_change Sub D h X hX
  | .UnaryOperator Op Sub, D, h, X, hX => by
    cases Op <;> simp only [Expr.Root] at h <;> try cases h
    simp only [Expr.SubExprs, List.mem_cons] at hX
    rcases hX with rfl | hX
    · rw [Expr.Analyse]
      simp only [UnaryOpcode.isIncrementDecrementOp, Bool.false_eq_true, if_false]
      exact Root_no_change Sub D h Sub (by cases Sub <;> simp [Expr.SubExprs])
    · exact Root_no_change Sub D h X hX
  | .MemberExpr Base M, D, h, X, hX => by
    simp only [Expr.SubExprs, List.mem_cons] at hX
    simp only [Expr.Root] at h
    rcases hX with rfl | hX
    · rw [Expr.Analyse]
      exact Root_no_change Base D h Base (by cases Base <;> simp [Expr.SubExprs])
    · exact Root_no_change Base D h X hX
  | .IntegerLiteral _, _, h, _, _ => by simp [Expr.Root] at h
  | .BinaryOperator _ _ _, _, h, _, _ => by simp [Expr.Root] at h
  | .CallExpr _ _, _, h, _, _ => by simp [Expr.Root] at h

theorem merge_Changed (A B : ScopeAnalysis) :
    (ScopeAnalysis.merge A B).Changed = A.Changed ∪ B.Changed := rfl

/-- The Changed set of a binary operator. -/
theorem Binary_Changed (Op : BinaryOpcode) (LHS RHS : Expr) :
    (Expr.BinaryOperator Op LHS RHS).Analyse.Changed =
      if Op.isAssignmentOp = true then
        (LHS.Root.elim LHS.Analyse.Changed fun D => {D}) ∪ RHS.Analyse.Changed
      else LHS.Analyse.Changed ∪ RHS.Analyse.Changed := by
  rw [Expr.Analyse]
  by_cases hOp : Op.isAssignmentOp = true
  · simp only [hOp, if_true]
    cases LHS.Root <;> rfl
  · simp only [hOp, if_false]
    rfl

mutual
/-- What a nested expression changes, the enclosing expression changes. -/
theorem Expr_Changed_mono : ∀ (E X : Expr), X ∈ E.SubExprs →
    X.Analyse.Changed ⊆ E.Analyse.Changed
  | .DeclRefExpr D, X, hX => by
    simp only [Expr.SubExprs, List.mem_singleton] at hX
    subst hX
    exact Finset.Subset.refl _
  | .IntegerLiteral n, X, hX => by
    simp only [Expr.SubExprs, List.mem_singleton] at hX
    subst hX
    exact Finset.Subset.refl _
  | .ParenExpr Sub, X, hX => by
    simp only [Expr.SubExprs, List.mem_cons] at hX
    rcases hX with rfl | hX
    · exact Finset.Subset.refl _
    · rw [Expr.Analyse]
      exact Expr_Changed_mono Sub X hX
  | .UnaryOperator Op Sub, X, hX => by
    simp only [Expr.SubExprs, List.mem_cons] at hX
    rcases hX with rfl | hX
    · exact Finset.Subset.refl _
    · have ih := Expr_Changed_mono Sub X hX
      rw [Expr.Analyse]
      split_ifs with hOp
      · split
        · rename_i D hD
          rw [Root_no_change Sub D (IgnoreParens_Root Sub D hD) X hX]
          exact Finset.empty_subset _
        · exact ih
      · exact ih
  | .BinaryOperator Op LHS RHS, X, hX => by
    simp only [Expr.SubExprs, List.mem_cons, List.mem_append] at hX
    rcases hX with rfl | hX | hX
    · exact Finset.Subset.refl _
    · have ih := Expr_Changed_mono LHS X hX
      rw [Binary_Changed]
      split_ifs with hOp
      · cases hR : LHS.Root with
        | some D =>
          rw [Root_no_change LHS D hR X hX]
          exact Finset.empty_subset _
        | none => exact ih.trans Finset.subset_union_left
      · exact ih.trans Finset.subset_union_left
    · have ih := Expr_Changed_mono RHS X hX
      rw [Binary_Changed]
      split_ifs with hOp
      · cases hR : LHS.Root with
        | some D => exact ih.trans Finset.subset_union_right
        | none => exact ih.trans Finset.subset_union_right
      · exact ih.trans Finset.subset_union_right
  | .MemberExpr Base M, X, hX => by
    simp only [Expr.SubExprs, List.mem_cons] at hX
    rcases hX with rfl | hX
    · exact Finset.Subset.refl _
    · rw [Expr.Analyse]
      exact Expr_Changed_mono Base X hX
  | .CallExpr Callee Args, X, hX => by
    simp only [Expr.SubExprs, List.mem_cons, List.mem_append] at hX
    rcases hX with rfl | hX | hX
    · exact Finset.Subset.refl _
    · rw [Expr.Analyse]
      exact (Expr_Changed_mono Callee X hX).trans Finset.subset_union_left
    · rw [Expr.Analyse]
      exact (ExprList_Changed_mono Args X hX).trans Finset.subset_union_right
/-- What an argument changes, the argument list changes. -/
theorem ExprList_Changed_mono : ∀ (Es : ExprList) (X : Expr), X ∈ Es.SubExprs →
    X.Analyse.Changed ⊆ Es.Analyse.Changed
  | .nil, X, hX => by simp [ExprList.SubExprs] at hX
  | .cons Head Tail, X, hX => by
    simp only [ExprList.SubExprs, List.mem_append] at hX
    rw [ExprList.Analyse]
    rcases hX with hX | hX
    · exact (Expr_Changed_mono Head X hX).trans Finset.subset_union_left
    · exact (ExprList_Changed_mono Tail X hX).trans Finset.subset_union_right
end

mutual
/-- What an expression of a statement changes, the statement changes. -/
theorem Stmt_Changed_mono : ∀ (S : Stmt) (X : Expr), X ∈ S.Exprs →
    X.Analyse.Changed ⊆ S.Analyse.Changed
  | .NullStmt, X, hX => by simp [Stmt.Exprs] at hX
  | .ExprStmt E, X, hX => by
    simp only [Stmt.Exprs] at hX
    rw [Stmt.Analyse]
    exact Expr_Changed_mono E X hX
  | .DeclStmt _, X, hX => by simp [Stmt.Exprs] at hX
  | .DeclStmtInit _ Init, X, hX => by
    simp only [Stmt.Exprs] at hX
    rw [Stmt.Analyse]
    exact Expr_Changed_mono Init X hX
  | .CompoundStmt Body, X, hX => by
    simp only [Stmt.Exprs] at hX
    rw [Stmt.Analyse]
    exact StmtList_Changed_mono Body X hX
  | .IfStmt Cond Then Else, X, hX => by
    simp only [Stmt.Exprs, List.mem_append] at hX
    rw [Stmt.Analyse]
    simp only [merge_Changed]
    rcases hX with hX | hX | hX
    · exact (Expr_Changed_mono Cond X hX).trans Finset.subset_union_left
    · exact ((Stmt_Changed_mono Then X hX).trans Finset.subset_union_left).trans
        Finset.subset_union_right
    · exact ((Stmt_Changed_mono Else X hX).trans Finset.subset_union_right).trans
        Finset.subset_union_right
  | .WhileStmt Cond Body, X, hX => by
    simp only [Stmt.Exprs, List.mem_append] at hX
    rw [Stmt.Analyse]
    simp only [merge_Changed]
    rcases hX with hX | hX
    · exact (Expr_Changed_mono Cond X hX).trans Finset.subset_union_left
    · exact (Stmt_Changed_mono Body X hX).trans Finset.subset_union_right
  | .ForStmt Init Cond Inc Body, X, hX => by
    simp only [Stmt.Exprs, List.mem_append] at hX
    rw [Stmt.Analyse]
    simp only [merge_Changed]
    intro V hV
    simp only [Finset.mem_union]
    rcases hX with hX | hX | hX | hX
    · exact Or.inl (Stmt_Changed_mono Init X hX hV)
    · exact Or.inr (Or.inl (Expr_Changed_mono Cond X hX hV))
    · exact Or.inr (Or.inr (Or.inl (Expr_Changed_mono Inc X hX hV)))
    · exact Or.inr (Or.inr (Or.inr (Stmt_Changed_mono Body X hX hV)))
  | .ReturnStmt Value, X, hX => by
    simp only [Stmt.Exprs] at hX
    rw [Stmt.Analyse]
    exact Expr_Changed_mono Value X hX
  | .ReturnVoidStmt, X, hX => by simp [Stmt.Exprs] at hX
/-- What an expression of a statement list changes, the list changes. -/
theorem StmtList_Changed_mono : ∀ (Ss : StmtList) (X : Expr), X ∈ Ss.Exprs →
    X.Analyse.Changed ⊆ Ss.Analyse.Changed
  | .nil, X, hX => by simp [StmtList.Exprs] at hX
  | .cons Head Tail, X, hX => by
    simp only [StmtList.Exprs, List.mem_append] at hX
    rw [StmtList.Analyse]
    rcases hX with hX | hX
    · exact (Stmt_Changed_mono Head X hX).trans Finset.subset_union_left
    · exact (StmtList_Changed_mono Tail X hX).trans Finset.subset_union_right
end

/-- An expression of one of the write shapes changes its variable. -/
theorem WritesTo_Changed (E : Expr) (V : DeclPtr) (h : E.WritesTo V = true) :
    V ∈ E.Analyse.Changed := by
  unfold Expr.WritesTo at h
  split at h
  · rename_i Op D
    simp only [Bool.and_eq_true, decide_eq_true_eq] at h
    obtain ⟨hOp, rfl⟩ := h
    rw [Expr.Analyse]
    simp [hOp, Expr.IgnoreParens]
  · rename_i Op D RHS
    simp only [Bool.and_eq_true, decide_eq_true_eq] at h
    obtain ⟨hOp, rfl⟩ := h
    rw [Binary_Changed]
    simp [hOp, Expr.Root]
  · rename_i Op D RHS
    simp only [Bool.and_eq_true, decide_eq_true_eq] at h
    obtain ⟨hOp, rfl⟩ := h
    rw [Binary_Changed]
    simp [hOp, Expr.Root]
  · cases h

/-- C5. Write detection by the scope analysis: when a scope contains,
anywhere, an expression that applies `++` or `--` (before or after) to V, or
an assignment `= *= /= %= += -= <<= >>= |= ^= &=` whose left-hand operand is
V or `*V`, the Changed set of the analysis of the scope contains V. This
covers the increment of a `for` loop and a right-hand side that changes
another variable, as in `i = ++j`. -/
theorem AnalyseThis_finds_writes (Body : Stmt) (E : Expr) (V : DeclPtr)
    (hE : E ∈ Body.Exprs) (hW : E.WritesTo V = true) :
    (ScopeAnalysis.AnalyseThis Body).WasChanged V = true ∧
    (∀ Op ∈ [UnaryOpcode.PreInc, .PreDec, .PostInc, .PostDec],
      (Expr.UnaryOperator Op (.DeclRefExpr V)).WritesTo V = true) ∧
    (∀ Op ∈ [BinaryOpcode.Assign, .MulAssign, .DivAssign, .RemAssign, .AddAssign,
        .SubAssign, .ShlAssign, .ShrAssign, .OrAssign, .XorAssign, .AndAssign],
      ∀ RHS : Expr,
        (Expr.BinaryOperator Op (.DeclRefExpr V) RHS).WritesTo V = true ∧
        (Expr.BinaryOperator Op (.UnaryOperator .Deref (.DeclRefExpr V)) RHS).WritesTo V =
          true) := by
  refine ⟨?_, ?_, ?_⟩
  · simp only [ScopeAnalysis.WasChanged, decide_eq_true_eq, ScopeAnalysis.AnalyseThis]
    exact Stmt_Changed_mono Body E hE (WritesTo_Changed E V hW)
  · intro Op hOp
    simp only [List.mem_cons, List.mem_singleton, List.not_mem_nil, or_false] at hOp
    rcases hOp with rfl | rfl | rfl | rfl <;>
      simp [Expr.WritesTo, UnaryOpcode.isIncrementDecrementOp]
  · intro Op hOp RHS
    simp only [List.mem_cons, List.mem_singleton, List.not_mem_nil, or_false] at hOp
    rcases hOp with rfl | rfl | rfl | rfl | rfl | rfl | rfl | rfl | rfl | rfl | rfl <;>
      simp [Expr.WritesTo, BinaryOpcode.isAssignmentOp, BinaryOpcode.isCompoundAssignmentOp]

/-- Witness for C5 on `i = ++j` in `binary_operators` of `ByValue.cpp`
(`i` at address 1, `j` at address 2): the statement changes `i`, its
right-hand side changes `j`. -/
theorem AnalyseThis_finds_writes_witness :
    (ScopeAnalysis.AnalyseThis Example.ByValue_binary_operators).WasChanged 1 = true ∧
    (ScopeAnalysis.AnalyseThis Example.ByValue_binary_operators).WasChanged 2 = true :=
  ⟨(AnalyseThis_finds_writes Example.ByValue_binary_operators
      (.BinaryOperator .Assign (.DeclRefExpr 1) (.UnaryOperator .PreInc (.DeclRefExpr 2))) 1
      (by decide) (by decide)).1,
    (AnalyseThis_finds_writes Example.ByValue_binary_operators
      (.UnaryOperator .PreInc (.DeclRefExpr 2)) 2 (by decide) (by decide)).1⟩

/-- The expected notes of `test/AnalysisFindsChanges/ByValue.cpp` and
`ByPointer.cpp` name exactly the variables in the Changed set of each test
function (`i` at address 1; `j`, respectively `iptr`, at address 2). -/
theorem AnalysisFindsChanges_tests :
    (ScopeAnalysis.AnalyseThis Example.ByValue_unary_operators).DebugChanged = [1] ∧
    (ScopeAnalysis.AnalyseThis Example.ByValue_binary_operators).DebugChanged = [1, 2] ∧
    (ScopeAnalysis.AnalyseThis Example.ByValue_change_in_for_loop).DebugChanged = [1] ∧
    (ScopeAnalysis.AnalyseThis Example.ByValue_declaration_statements).DebugChanged = [1] ∧
    (ScopeAnalysis.AnalyseThis Example.ByPointer_unary_operators).DebugChanged = [2] ∧
    (ScopeAnalysis.AnalyseThis Example.ByPointer_binary_operators).DebugChanged = [2] := by
  refine ⟨?_, ?_, ?_, ?_, ?_, ?_⟩ <;> decide

/-! ## The whole run -/

/-- A wrapper either fails for every state or runs `Eval` over one fixed
sequence of inputs. -/
theorem CheckPseudoConstness_cases (Ctx : ASTContext) (W : FunctionWrapper) :
    (∀ S, W.CheckPseudoConstness Ctx S = none) ∨
    ∃ Inputs, ∀ S, W.CheckPseudoConstness Ctx S = some (EvalSeq Ctx S Inputs) := by
  cases hB : W.GetFunctionDecl.getBody with
  | none =>
    left
    intro S
    simp [FunctionWrapper.CheckPseudoConstness, hB]
  | some Body =>
    cases hV : W.GetVariables with
    | none =>
      left
      intro S
      simp [FunctionWrapper.CheckPseudoConstness, hB, hV]
    | some Vars =>
      right
      exact ⟨_, fun S => CheckPseudoConstness_eq Ctx S W Body Vars hB hV⟩

/-- Two wrappers can be checked in either order. -/
theorem CheckPseudoConstness_comm (Ctx : ASTContext) (W₁ W₂ : FunctionWrapper)
    (St : Option PseudoConstnessAnalysisState) :
    (St.bind fun S => W₁.CheckPseudoConstness Ctx S).bind
        (fun S => W₂.CheckPseudoConstness Ctx S) =
      (St.bind fun S => W₂.CheckPseudoConstness Ctx S).bind
        (fun S => W₁.CheckPseudoConstness Ctx S) := by
  cases St with
  | none => rfl
  | some S =>
    simp only [Option.some_bind]
    rcases CheckPseudoConstness_cases Ctx W₁ with h₁ | ⟨L₁, h₁⟩ <;>
      rcases CheckPseudoConstness_cases Ctx W₂ with h₂ | ⟨L₂, h₂⟩
    · simp [h₁, h₂]
    · simp [h₁, h₂]
    · simp [h₁, h₂]
    · simp only [h₁, h₂, Option.some_bind, Option.some.injEq]
      rw [← EvalSeq_append, ← EvalSeq_append]
      unfold EvalSeq
      exact List.Perm.foldl_eq' List.perm_append_comm
        (fun x _ y _ z => Eval_comm Ctx z x y) S

/-- The state after `DumpPseudoConstness` has checked all wrappers does not
depend on the order in which the map hands them out. -/
theorem CheckAll_order_independent (Ctx : ASTContext) (C₁ C₂ : FunctionCollector)
    (h : List.Perm (C₁.Functions.map Prod.snd) (C₂.Functions.map Prod.snd)) :
    C₁.CheckAll Ctx = C₂.CheckAll Ctx := by
  have hfold : ∀ C : FunctionCollector, C.CheckAll Ctx =
      (C.Functions.map Prod.snd).foldl
        (fun State W => State.bind fun S => W.CheckPseudoConstness Ctx S) (some init) := by
    intro C
    simp [FunctionCollector.CheckAll, List.foldl_map]
  rw [hfold, hfold]
  exact List.Perm.foldl_eq' h (fun x _ y _ z => CheckPseudoConstness_comm Ctx x y z) _

/-- The end-to-end scenarios: a parameter that is assigned and a parameter
of const type give no report; a parameter that is only returned is
reported, also when a forward declaration is visited after the definition;
a field read by one method and written by another is not reported, in
either visiting order. -/
theorem DumpPseudoConstness_scenarios :
    (FunctionCollector.init.Steps [.VisitFunctionDecl Example.AssignsParameter]).DumpPseudoConstness
      Example.AllInt = some [] ∧
    (FunctionCollector.init.Steps [.VisitFunctionDecl Example.ReturnsParameter]).DumpPseudoConstness
      Example.AllIntConst = some [] ∧
    (FunctionCollector.init.Steps
      [.VisitFunctionDecl Example.ReturnsParameter,
        .VisitFunctionDecl Example.DeclaresOnly]).DumpPseudoConstness
      Example.AllInt = some [1] ∧
    (FunctionCollector.init.Steps
      [.VisitFunctionDecl Example.MethodReadsField.toFunctionDecl,
        .VisitCXXMethodDecl Example.MethodReadsField,
        .VisitFunctionDecl Example.MethodWritesField.toFunctionDecl,
        .VisitCXXMethodDecl Example.MethodWritesField]).DumpPseudoConstness
      Example.AllInt = some [] ∧
    (FunctionCollector.init.Steps
      [.VisitFunctionDecl Example.MethodWritesField.toFunctionDecl,
        .VisitCXXMethodDecl Example.MethodWritesField,
        .VisitFunctionDecl Example.MethodReadsField.toFunctionDecl,
        .VisitCXXMethodDecl Example.MethodReadsField]).DumpPseudoConstness
      Example.AllInt = some [] := by
  refine ⟨?_, ?_, ?_, ?_, ?_⟩ <;> decide

end Constantine
